import Mathlib

/-!
# Verification of the make-capacitor-key-sdk protocol engine

A shallow embedding, over `List Nat` byte buffers, of the protocol code of
the `make-capacitor-key-sdk` TypeScript repository:

* `PhysicalLayer` (src/protocol/PhysicalLayer.ts): framing `pack` and the
  sliding-window `unpackWithRemain` scanner;
* `DefaultApplicationLayer` (src/protocol/ApplicationLayer.ts): frame-index +
  length-byte framing;
* `TransportLayerV1` (src/protocol/TransportLayer.ts): version + control byte
  envelope (the AES cipher is kept abstract as a function parameter, since the
  properties verified here are independent of the cipher);
* `CommandUtils.convertLockIdsToSegments` / `convertSegmentsToPackets`
  (src/utils/CommandUtils.ts): the lock-ID range compressor and packetizer;
* the `BluetoothKeySDK` session manager (src/BluetoothKeySDK.ts):
  `checkXorValidation`, `isDeviceReport`, `handleRequestWithAckData`,
  `buildCompletePacket`, `buildReplyPacket`, `clearPendingFrameResponses`,
  `disconnectDevice` and `_handleDeviceDisconnected` (state effects only).

Bytes are modelled as `Nat` with explicit `% 256` where `Uint8Array` element
assignment truncates; JavaScript `x << 8` / `x >> (8*i) & 0xFF` on the
(non-negative, < 2^31) values that occur here are modelled as `* 256` /
`/ 2^(8*i) % 256`.
-/

namespace PhysicalLayer

/-- `PhysicalLayer.intToLittleEndian(value, bytes)` (PhysicalLayer.ts):
`result[i] = (value >> (i*8)) & 0xFF`. -/
def intToLittleEndian (value bytes : Nat) : List Nat :=
  (List.range bytes).map (fun i => value / 2 ^ (8 * i) % 256)

/-- `PhysicalLayer.pack(data)` (PhysicalLayer.ts lines 10-31): 2-byte header
`A5 5A`, 2-byte little-endian length field holding `data.length + 1`, the
payload, and a 1-byte checksum equal to the sum of header, length bytes and
payload reduced `& 0xFF`. -/
def pack (data : List Nat) : List Nat :=
  let lengthBytes := intToLittleEndian (data.length + 1) 2
  let checksum := (0xA5 + 0x5A + lengthBytes.sum + data.sum) % 256
  [0xA5, 0x5A] ++ lengthBytes ++ data ++ [checksum]

/-- The sliding-window scan loop of `PhysicalLayer.unpackWithRemain`
(PhysicalLayer.ts lines 43-76), written as recursion on the scan index:
while at least 5 bytes remain, look for the `A5 5A` header (else advance one
byte); parse the little-endian length; if the candidate frame is incomplete,
stop (`break`) keeping everything from `index` as the remainder; verify the
checksum, advancing exactly one byte on mismatch; on success emit the whole
frame `data.slice(index, index + totalLen)` and continue after it. -/
def unpackScan (data : List Nat) (index : Nat) : List (List Nat) × List Nat :=
  if _h5 : index + 5 ≤ data.length then
    if data.getD index 0 = 0xA5 ∧ data.getD (index + 1) 0 = 0x5A then
      let len := data.getD (index + 2) 0 + data.getD (index + 3) 0 * 256
      let totalLen := 4 + len
      if index + totalLen > data.length then
        ([], data.drop index)
      else
        if ((data.drop index).take (totalLen - 1)).sum % 256
            = data.getD (index + totalLen - 1) 0 then
          let rest := unpackScan data (index + totalLen)
          (((data.drop index).take totalLen) :: rest.1, rest.2)
        else
          unpackScan data (index + 1)
    else
      unpackScan data (index + 1)
  else
    ([], data.drop index)
termination_by data.length - index
decreasing_by
  all_goals omega

/-- `PhysicalLayer.unpackWithRemain(data)`: run the scan from index 0. -/
def unpackWithRemain (data : List Nat) : List (List Nat) × List Nat :=
  unpackScan data 0

end PhysicalLayer

namespace BluetoothKeySDK

/-- The frame-validation and payload-extraction prefix of
`_processPhysicalFrame` (BluetoothKeySDK.ts lines 842-857): require at least
5 bytes, require the frame length to equal `4 + dataLength` where
`dataLength` is the little-endian length field, and return
`physicalFrame.slice(4, 4 + dataLength - 1)`. -/
def processPhysicalFrame (frame : List Nat) : Option (List Nat) :=
  if frame.length < 5 then none
  else
    let dataLength := frame.getD 2 0 + frame.getD 3 0 * 256
    if frame.length ≠ 4 + dataLength then none
    else some ((frame.drop 4).take (dataLength - 1))

/-- The receive-path composition (lines 829-857): scan the buffer for complete
physical frames and extract each frame's payload. -/
def unpackPayloads (data : List Nat) : List (List Nat) :=
  (PhysicalLayer.unpackWithRemain data).1.filterMap processPhysicalFrame

end BluetoothKeySDK

namespace DefaultApplicationLayer

/-- An unpacked application-layer message (`ApplicationData` in types.ts). -/
structure ApplicationData where
  frameIndex : Nat
  data : List Nat
  deriving Repr, DecidableEq

/-- `DefaultApplicationLayer.pack(data, frameIndex)` (ApplicationLayer.ts):
`[frameIndex][data.length][data...]`; the two header bytes are stored into a
`Uint8Array`, hence reduced mod 256. -/
def pack (data : List Nat) (frameIndex : Nat) : List Nat :=
  frameIndex % 256 :: data.length % 256 :: data

/-- `DefaultApplicationLayer.unpack(data)` (ApplicationLayer.ts): return the
empty result unless `data[1] == data.length - 2`; else frame index `data[0]`
and payload `data.slice(2)`. -/
def unpack (data : List Nat) : ApplicationData :=
  if data.length < 2 then ⟨0, []⟩
  else if data.getD 1 0 ≠ data.length - 2 then ⟨0, []⟩
  else ⟨data.getD 0 0, data.drop 2⟩

end DefaultApplicationLayer

namespace CommandUtils

/-- The merge loop of `convertLockIdsToSegments` (CommandUtils.ts lines
227-240): walk the sorted IDs keeping a current `[start, end]` range; an ID
equal to `end + 1` extends the range, any other ID closes it and opens a new
one. -/
def mergeSegLoop (start endv : Int) : List Int → List (Int × Int)
  | [] => [(start, endv)]
  | y :: ys =>
      if y = endv + 1 then mergeSegLoop start y ys
      else (start, endv) :: mergeSegLoop y y ys

/-- `CommandUtils.convertLockIdsToSegments(lockIds)` (CommandUtils.ts lines
215-242): keep the positive IDs, sort ascending (`.sort((a,b) => a-b)`), and
merge runs of consecutive integers into inclusive ranges.  String entries of
the TypeScript input are represented here by their parsed integer value
(`parseInt(id, 10) || 0`, so unparsable strings contribute `0` and are
dropped by the positivity filter). -/
def convertLockIdsToSegments (lockIds : List Int) : List (Int × Int) :=
  let ids := (lockIds.filter (fun id => 0 < id)).insertionSort (· ≤ ·)
  match ids with
  | [] => []
  | x :: rest => mergeSegLoop x x rest

/-- 4-byte little-endian encoding of one range endpoint
(CommandUtils.ts lines 257-262): `number & 0xFF`, `(number >> 8) & 0xFF`,
`(number >> 16) & 0xFF`, `(number >> 24) & 0xFF`; JavaScript bitwise
operators act on the value's low 32 bits. -/
def enc4 (n : Nat) : List Nat :=
  let m := n % 4294967296
  [m % 256, m / 256 % 256, m / 65536 % 256, m / 16777216 % 256]

/-- Packet assembly (CommandUtils.ts lines 266 and 275):
`[0x0D, currentChunk.length / 8, ...currentChunk]`. -/
def mkPacket (chunk : List Nat) : List Nat :=
  0x0D :: chunk.length / 8 :: chunk

/-- The body of the inner `for (const number of segment)` loop of
`convertSegmentsToPackets` (CommandUtils.ts lines 255-270): append the
4-byte encoding of one endpoint to the current chunk and emit a packet when
the chunk reaches `25 * 8 = 200` bytes. -/
def pushNumber (st : List (List Nat) × List Nat) (n : Nat) :
    List (List Nat) × List Nat :=
  let chunk := st.2 ++ enc4 n
  if 200 ≤ chunk.length then (st.1 ++ [mkPacket chunk], [])
  else (st.1, chunk)

/-- `CommandUtils.convertSegmentsToPackets(segments)` (CommandUtils.ts lines
249-280): push both endpoints of every segment through `pushNumber`, then
emit a final packet for any non-empty leftover chunk.  (On every reachable
state the chunk length is a multiple of 8, so the JavaScript float division
`currentChunk.length / 8` agrees with `Nat` division.) -/
def convertSegmentsToPackets (segments : List (Nat × Nat)) : List (List Nat) :=
  let st := segments.foldl (fun st seg => pushNumber (pushNumber st seg.1) seg.2)
    ([], [])
  if 0 < st.2.length then st.1 ++ [mkPacket st.2] else st.1

/-- Modelled from the spec: the packet decoder is not part of the source
(the device consumes the packets), so following §4.5/§6 of the spec each
range endpoint is a 4-byte little-endian word and a packet body is a
sequence of `[start, end]` pairs. -/
def dec4 (b0 b1 b2 b3 : Nat) : Nat :=
  b0 + b1 * 256 + b2 * 65536 + b3 * 16777216

/-- Modelled from the spec: decode a packet body into its list of ranges. -/
def decodeChunk : List Nat → List (Nat × Nat)
  | b0 :: b1 :: b2 :: b3 :: b4 :: b5 :: b6 :: b7 :: rest =>
      (dec4 b0 b1 b2 b3, dec4 b4 b5 b6 b7) :: decodeChunk rest
  | _ => []

/-- Modelled from the spec: decode a whole packet, skipping the opcode byte
and the range-count byte. -/
def decodePacket (p : List Nat) : List (Nat × Nat) :=
  decodeChunk (p.drop 2)

/-- The byte image of a range list: both endpoints of every range, 4-byte
little-endian each — the shape of the chunk accumulated by
`convertSegmentsToPackets`. -/
def flatEnc (rs : List (Nat × Nat)) : List Nat :=
  (rs.map (fun r => enc4 r.1 ++ enc4 r.2)).flatten

end CommandUtils

namespace BluetoothKeySDK

/-- `TransportAckType` (types.ts). -/
inductive TransportAckType where
  | requestWithoutAck
  | requestWithAck
  | ack
  | none
  deriving Repr, DecidableEq

/-- `TransportEncryptType` (types.ts). -/
inductive TransportEncryptType where
  | noEncrypt
  | encrypt
  deriving Repr, DecidableEq

/-- The control-byte table of `TransportLayerV1.pack`
(TransportLayer.ts lines 31-45). -/
def controlByte : TransportAckType → TransportEncryptType → Nat
  | .requestWithoutAck, .encrypt => 0xFC
  | .requestWithoutAck, .noEncrypt => 0xF4
  | .requestWithAck, .encrypt => 0xFE
  | .requestWithAck, .noEncrypt => 0xF6
  | .ack, .encrypt => 0xFD
  | .ack, .noEncrypt => 0xF5
  | .none, .encrypt => 0xFF
  | .none, .noEncrypt => 0xF7

/-- `TransportLayerV1.pack(data, options)` (TransportLayer.ts lines 9-61):
`[version][controlByte][body]` where the body is the AES-ECB ciphertext when
encrypting.  The cipher is abstracted as `encFn`; the properties proved here
do not depend on it. -/
def transportPack (encFn : List Nat → List Nat) (data : List Nat)
    (version : Nat) (ackType : TransportAckType)
    (encryptType : TransportEncryptType) : List Nat :=
  version :: controlByte ackType encryptType ::
    (match encryptType with
     | .encrypt => encFn data
     | .noEncrypt => data)

/-- Options of `buildCompletePacket` (BluetoothKeySDK.ts lines 714-731) with
their default values; `frameIndex = none` models an absent `frameIndex`
option, which defaults to the device's current counter. -/
structure BuildOptions where
  frameIndex : Option Nat := Option.none
  version : Nat := 0x01
  ackType : TransportAckType := .requestWithAck
  encryptType : TransportEncryptType := .encrypt

/-- `buildCompletePacket(deviceId, applicationData, options)`
(BluetoothKeySDK.ts lines 711-806): application-layer pack with the chosen
frame index, transport-layer pack, physical-layer pack; afterwards the
per-device `frameIndexes` counter is set to `(frameIndex + 1) % 256` exactly
when `ackType === REQUEST_WITH_ACK` (lines 796-799).  Returns the physical
packet together with the updated `frameIndexes` map. -/
def buildCompletePacket (encFn : List Nat → List Nat)
    (frameIndexes : String → Nat) (deviceId : String)
    (applicationData : List Nat) (opts : BuildOptions) :
    List Nat × (String → Nat) :=
  let frameIndex := opts.frameIndex.getD (frameIndexes deviceId)
  let appData := DefaultApplicationLayer.pack applicationData frameIndex
  let transportData :=
    transportPack encFn appData opts.version opts.ackType opts.encryptType
  let physicalData := PhysicalLayer.pack transportData
  let frameIndexes' :=
    if opts.ackType = .requestWithAck then
      Function.update frameIndexes deviceId ((frameIndex + 1) % 256)
    else frameIndexes
  (physicalData, frameIndexes')

/-- `buildReplyPacket(deviceId, applicationData, frameIndex, ...)`
(BluetoothKeySDK.ts lines 1264-1322): same three-layer packing with the
caller-specified frame index and ack type fixed to `ACK`; the `frameIndexes`
map is never touched. -/
def buildReplyPacket (encFn : List Nat → List Nat)
    (frameIndexes : String → Nat) (applicationData : List Nat)
    (frameIndex : Nat) (encryptType : TransportEncryptType) :
    List Nat × (String → Nat) :=
  (PhysicalLayer.pack
    (transportPack encFn (DefaultApplicationLayer.pack applicationData frameIndex)
      0x01 .ack encryptType),
   frameIndexes)

/-- `checkXorValidation(requestData, responseData)` (BluetoothKeySDK.ts lines
387-414): both arrays non-empty, matching leading command byte, bodies (the
bytes after the command byte) of equal length, and every response body byte
equal to the request body byte XOR `0x5A`. -/
def checkXorValidation (requestData responseData : List Nat) : Bool :=
  if requestData.length = 0 ∨ responseData.length = 0 then false
  else if responseData.getD 0 0 ≠ requestData.getD 0 0 then false
  else
    let requestBody := requestData.drop 1
    let responseBody := responseData.drop 1
    if responseBody.length ≠ requestBody.length then false
    else (List.zip requestBody responseBody).all
      (fun p => p.2 == Nat.xor p.1 0x5A)

/-- `isDeviceReport(data)` (BluetoothKeySDK.ts lines 979-985): non-empty and
leading opcode `BusinessCmd.UPLOAD_STATUS = 0x07` or
`BusinessCmd.GET_SYS_PARAM = 0x06` (values from the `BusinessCmd` enum in
types.ts). -/
def isDeviceReport (data : List Nat) : Bool :=
  match data with
  | [] => false
  | c :: _ => c == 0x07 || c == 0x06

/-- Whether `CommandUtils.parseDeviceStatusReport(data)` succeeds
(CommandUtils.ts lines 850-926): a 7-byte `UPLOAD_STATUS (0x07)` frame or an
8-byte `GET_SYS_PARAM (0x06)` frame; anything else throws. -/
def parseDeviceStatusReportOk (data : List Nat) : Bool :=
  match data with
  | 0x07 :: _ => data.length == 7
  | 0x06 :: _ => data.length == 8
  | _ => false

/-- The events a `BluetoothKeySDK` method can emit (the variants of
`BluetoothKeyEvent.type` in types.ts that the modelled handlers use). -/
inductive EventKind where
  | deviceReport
  | lockStatusReport
  | deviceInfoReport
  | errorEvent
  deriving Repr, DecidableEq

/-- The events emitted by `handleDeviceReport(deviceId, data)`
(BluetoothKeySDK.ts lines 990-1032): on a successful parse it emits
`deviceReport`, then `lockStatusReport` and `deviceInfoReport` (both branches
are always populated by `parseDeviceStatusReport`); on a parse error it emits
an `error` event. -/
def handleDeviceReportEvents (data : List Nat) : List EventKind :=
  if parseDeviceStatusReportOk data then
    [.deviceReport, .lockStatusReport, .deviceInfoReport]
  else [.errorEvent]

/-- The reply payload chosen by `handleDeviceActiveCommand`
(BluetoothKeySDK.ts lines 1229-1242): `[0x07, 0x01]` for `UPLOAD_STATUS`,
`[0x05, 0x01]` for `GET_SYS_PARAM`, `[command, 0x01]` otherwise. -/
def deviceActiveReplyData (data : List Nat) : List Nat :=
  match data.headD 0 with
  | 0x07 => [0x07, 0x01]
  | 0x06 => [0x05, 0x01]
  | c => [c, 0x01]

/-- The outwardly observable effects of one `handleRequestWithAckData` call:
emitted events, the application-layer reply (payload bytes and the frame
index handed to `buildReplyPacket`), the dynamic-key update, whether the
auth promise completes, and a waiter resolution `(frameIndex, data)`. -/
structure RwaEffects where
  events : List EventKind
  reply : Option (List Nat × Nat)
  newKey : Option (List Nat)
  authCompleted : Bool
  resolved : Option (Nat × List Nat)
  deriving Repr, DecidableEq

/-- `handleRequestWithAckData(deviceId, frameIndex, command, data)`
(BluetoothKeySDK.ts lines 1407-1475): device reports (per `isDeviceReport`)
emit report events and are answered, on the SAME frame index, with
`deviceActiveReplyData`; opcode `0x02` is answered with the body XORed by
`0x5A`; opcodes `0x03`/`0x04` adopt the body as the new dynamic key and echo
it (`0x04` also completing authentication); any other opcode resolves the
pending waiter for this frame index. -/
def handleRequestWithAckData (frameIndex : Nat) (data : List Nat) :
    RwaEffects :=
  if isDeviceReport data then
    { events := handleDeviceReportEvents data
      reply := some (deviceActiveReplyData data, frameIndex)
      newKey := Option.none, authCompleted := false, resolved := Option.none }
  else if data.headD 0 = 0x02 then
    { events := []
      reply := some (0x02 :: (data.drop 1).map (fun b => Nat.xor b 0x5A), frameIndex)
      newKey := Option.none, authCompleted := false, resolved := Option.none }
  else if data.headD 0 = 0x03 then
    { events := [], reply := some (0x03 :: data.drop 1, frameIndex)
      newKey := some (data.drop 1), authCompleted := false
      resolved := Option.none }
  else if data.headD 0 = 0x04 then
    { events := [], reply := some (0x04 :: data.drop 1, frameIndex)
      newKey := some (data.drop 1), authCompleted := true
      resolved := Option.none }
  else
    { events := [], reply := Option.none, newKey := Option.none
      authCompleted := false, resolved := some (frameIndex, data) }

/-- Why a pending frame-response waiter's promise is rejected. -/
inductive RejectReason where
  | connectionClosed
  | timeout
  deriving Repr, DecidableEq

/-- The per-device waiter bookkeeping of the session manager:
`pending` holds the `pendingFrameResponses` entries for this device as
`(frameIndex, waiterId)` pairs, and `waiterTimersActive` the ids of waiters
whose timeout timers (set in `waitForFrameResponse`, lines 1048-1060) are
still scheduled. -/
structure WaiterState where
  pending : List (Nat × Nat)
  waiterTimersActive : List Nat
  deriving Repr, DecidableEq

/-- `clearPendingFrameResponses(deviceId)` (BluetoothKeySDK.ts lines
1082-1091): for every pending entry, clear its timer and reject its promise
with the "连接断开" (connection closed) error, then clear the map.  Returns
the emitted rejections `(waiterId, reason)` with the new state. -/
def clearPendingFrameResponses (st : WaiterState) :
    List (Nat × RejectReason) × WaiterState :=
  (st.pending.map (fun w => (w.2, RejectReason.connectionClosed)),
   { pending := []
     waiterTimersActive :=
       st.waiterTimersActive.filter
         (fun t => decide (t ∉ st.pending.map (fun w => w.2))) })

/-- The waiter handling of `disconnectDevice(deviceId)` (BluetoothKeySDK.ts
lines 524-583): it calls `clearPendingFrameResponses` (line 543) before
tearing the session down, so every pending waiter is rejected with the
connection-closed error and its timer cleared. -/
def disconnectDevice (st : WaiterState) :
    List (Nat × RejectReason) × WaiterState :=
  clearPendingFrameResponses st

/-- The waiter handling of `_handleDeviceDisconnected(deviceId)`
(BluetoothKeySDK.ts lines 1480-1534): the cleanup block only runs
`this.pendingFrameResponses.delete(deviceId)` (line 1507) — the map entry is
dropped but no waiter promise is rejected and no waiter timer is cleared
(lines 1517-1522 clear only the receive timer and the auth timer). -/
def handleDeviceDisconnected (st : WaiterState) :
    List (Nat × RejectReason) × WaiterState :=
  ([], { pending := [], waiterTimersActive := st.waiterTimersActive })

/-- The per-device reassembly loop of `handleReceivedData` and
`_processBufferedFrames` (BluetoothKeySDK.ts lines 811-837): each inbound
chunk is appended to the device's buffer (`dataBuffers`), the buffer is
scanned with `unpackWithRemain`, the complete frames are consumed and the
remainder becomes the new buffer.  `feedChunks` returns all frames produced
and the final buffered remainder, starting from an empty buffer. -/
def feedChunks (chunks : List (List Nat)) : List (List Nat) × List Nat :=
  chunks.foldl
    (fun st c =>
      let r := PhysicalLayer.unpackWithRemain (st.2 ++ c)
      (st.1 ++ r.1, r.2))
    ([], [])

end BluetoothKeySDK

section Helpers

/-- `getD` through `drop`: reading the suffix at `j` is reading the original
list at `i + j`. -/
theorem getD_drop_eq (l : List Nat) (i j : Nat) :
    (l.drop i).getD j 0 = l.getD (i + j) 0 := by
  induction l generalizing i j with
  | nil => simp
  | cons x xs ih =>
      cases i with
      | zero => simp
      | succ i' =>
          simp only [List.drop_succ_cons, ih i' j, List.getD_cons_succ,
            Nat.succ_add]

/-- Pointwise reading of a zipped `all` check used by `checkXorValidation`. -/
theorem zip_all_xor_iff (f : Nat → Nat) :
    ∀ (a b : List Nat), b.length = a.length →
      (((List.zip a b).all (fun p => p.2 == f p.1)) = true ↔
        ∀ j, j < a.length → b.getD j 0 = f (a.getD j 0)) := by
  intro a
  induction a with
  | nil =>
      intro b hb
      have : b = [] := List.length_eq_zero.mp hb
      subst this
      simp
  | cons x xs ih =>
      intro b hb
      cases b with
      | nil => simp at hb
      | cons y ys =>
          simp only [List.length_cons, Nat.succ.injEq] at hb
          simp only [List.zip_cons_cons, List.all_cons, Bool.and_eq_true,
            beq_iff_eq, ih ys hb, List.length_cons]
          constructor
          · rintro ⟨hy, hrest⟩ j hj
            cases j with
            | zero => simpa using hy
            | succ j' =>
                simp only [List.getD_cons_succ]
                exact hrest j' (by omega)
          · intro h
            refine ⟨by simpa using h 0 (by omega), fun j hj => ?_⟩
            have := h (j + 1) (by omega)
            simpa using this

/-- Scan locality: the sliding-window scan from position `index` only reads
the suffix, so it equals the scan of the dropped list from position 0. -/
theorem unpackScan_eq_drop (data : List Nat) :
    ∀ index, PhysicalLayer.unpackScan data index =
      PhysicalLayer.unpackScan (data.drop index) 0 := by
  have H : ∀ (n : Nat) (data : List Nat) (index : Nat),
      data.length - index ≤ n →
      PhysicalLayer.unpackScan data index =
        PhysicalLayer.unpackScan (data.drop index) 0 := by
    intro n
    induction n with
    | zero =>
        intro data index hle
        rw [PhysicalLayer.unpackScan, dif_neg (by omega)]
        rw [PhysicalLayer.unpackScan,
          dif_neg (by rw [List.length_drop]; omega)]
        rfl
    | succ n ih =>
        intro data index hle
        have e0 : (data.drop index).getD 0 0 = data.getD index 0 := by
          rw [getD_drop_eq, Nat.add_zero]
        have e1 : (data.drop index).getD 1 0 = data.getD (index + 1) 0 := by
          rw [getD_drop_eq]
        have e2 : (data.drop index).getD 2 0 = data.getD (index + 2) 0 := by
          rw [getD_drop_eq]
        have e3 : (data.drop index).getD 3 0 = data.getD (index + 3) 0 := by
          rw [getD_drop_eq]
        have e5 : (data.drop index).getD
            (4 + (data.getD (index + 2) 0 + data.getD (index + 3) 0 * 256)
              - 1) 0 =
            data.getD (index +
              (4 + (data.getD (index + 2) 0 + data.getD (index + 3) 0 * 256))
              - 1) 0 := by
          rw [getD_drop_eq]
          congr 1
          omega
        by_cases h5 : index + 5 ≤ data.length
        · rw [PhysicalLayer.unpackScan, dif_pos h5]
          conv_rhs => rw [PhysicalLayer.unpackScan]
          rw [dif_pos (show 0 + 5 ≤ (data.drop index).length from by
            rw [List.length_drop]; omega)]
          simp only [Nat.zero_add, List.drop_zero, e0, e1, e2, e3, e5]
          by_cases hH : data.getD index 0 = 0xA5 ∧ data.getD (index + 1) 0 = 0x5A
          · rw [if_pos hH, if_pos hH]
            by_cases hbr : index +
                (4 + (data.getD (index + 2) 0 + data.getD (index + 3) 0 * 256)) >
                data.length
            · rw [if_pos hbr, if_pos (show
                4 + (data.getD (index + 2) 0 + data.getD (index + 3) 0 * 256) >
                  (data.drop index).length from by rw [List.length_drop]; omega)]
            · rw [if_neg hbr, if_neg (show ¬ (4 + (data.getD (index + 2) 0 +
                  data.getD (index + 3) 0 * 256) >
                  (data.drop index).length) from by rw [List.length_drop]; omega)]
              by_cases hcs : ((data.drop index).take
                  (4 + (data.getD (index + 2) 0 + data.getD (index + 3) 0 * 256)
                    - 1)).sum % 256 =
                  data.getD (index +
                    (4 + (data.getD (index + 2) 0 + data.getD (index + 3) 0 * 256))
                    - 1) 0
              · rw [if_pos hcs, if_pos hcs]
                have hrec1 := ih data
                  (index + (4 + (data.getD (index + 2) 0 +
                    data.getD (index + 3) 0 * 256))) (by omega)
                have hrec2 := ih (data.drop index)
                  (4 + (data.getD (index + 2) 0 + data.getD (index + 3) 0 * 256))
                  (by rw [List.length_drop]; omega)
                rw [hrec1, hrec2, List.drop_drop]
              · rw [if_neg hcs, if_neg hcs]
                have hrec1 := ih data (index + 1) (by omega)
                have hrec2 := ih (data.drop index) 1
                  (by rw [List.length_drop]; omega)
                rw [hrec1, hrec2, List.drop_drop]
          · rw [if_neg hH, if_neg hH]
            have hrec1 := ih data (index + 1) (by omega)
            have hrec2 := ih (data.drop index) 1
              (by rw [List.length_drop]; omega)
            rw [hrec1, hrec2, List.drop_drop]
        · rw [PhysicalLayer.unpackScan, dif_neg h5]
          rw [PhysicalLayer.unpackScan, dif_neg (show ¬ 0 + 5 ≤
            (data.drop index).length from by rw [List.length_drop]; omega)]
          rfl
  exact fun index => H (data.length - index) data index le_rfl

/-- `getD` on an append reads the left part below its length. -/
theorem getD_append_lt (l₁ l₂ : List Nat) (n : Nat) (h : n < l₁.length) :
    (l₁ ++ l₂).getD n 0 = l₁.getD n 0 := by
  induction l₁ generalizing n with
  | nil => simp at h
  | cons x xs ih =>
      cases n with
      | zero => rfl
      | succ n' =>
          simp only [List.cons_append, List.getD_cons_succ]
          exact ih n' (by simp only [List.length_cons] at h; omega)

/-- Dropping at most the left part of an append keeps the right part. -/
theorem drop_append_le (l₁ l₂ : List Nat) (n : Nat) (h : n ≤ l₁.length) :
    (l₁ ++ l₂).drop n = l₁.drop n ++ l₂ := by
  rw [List.drop_append_eq_append_drop, show n - l₁.length = 0 from by omega,
    List.drop_zero]

/-- Taking at most the left part of an append stays in the left part. -/
theorem take_append_le (l₁ l₂ : List Nat) (n : Nat) (h : n ≤ l₁.length) :
    (l₁ ++ l₂).take n = l₁.take n := by
  rw [List.take_append_eq_append_take, show n - l₁.length = 0 from by omega,
    List.take_zero, List.append_nil]

/-- Scanning a concatenation equals scanning the first part and then
rescanning its remainder prefixed to the second part: the sliding-window
scan commutes with buffering. -/
theorem unpackScan_append (c1 c2 : List Nat) :
    ∀ index, index ≤ c1.length →
      PhysicalLayer.unpackScan (c1 ++ c2) index =
        ((PhysicalLayer.unpackScan c1 index).1 ++
          (PhysicalLayer.unpackWithRemain
            ((PhysicalLayer.unpackScan c1 index).2 ++ c2)).1,
         (PhysicalLayer.unpackWithRemain
           ((PhysicalLayer.unpackScan c1 index).2 ++ c2)).2) := by
  have hkey : ∀ index, index ≤ c1.length →
      PhysicalLayer.unpackScan c1 index = ([], c1.drop index) →
      PhysicalLayer.unpackScan (c1 ++ c2) index =
        ((PhysicalLayer.unpackScan c1 index).1 ++
          (PhysicalLayer.unpackWithRemain
            ((PhysicalLayer.unpackScan c1 index).2 ++ c2)).1,
         (PhysicalLayer.unpackWithRemain
           ((PhysicalLayer.unpackScan c1 index).2 ++ c2)).2) := by
    intro index hle hnil
    rw [hnil, unpackScan_eq_drop (c1 ++ c2) index, drop_append_le c1 c2 index hle]
    rw [PhysicalLayer.unpackWithRemain]
    simp only [List.nil_append]
  have H : ∀ (n index : Nat), c1.length - index ≤ n → index ≤ c1.length →
      PhysicalLayer.unpackScan (c1 ++ c2) index =
        ((PhysicalLayer.unpackScan c1 index).1 ++
          (PhysicalLayer.unpackWithRemain
            ((PhysicalLayer.unpackScan c1 index).2 ++ c2)).1,
         (PhysicalLayer.unpackWithRemain
           ((PhysicalLayer.unpackScan c1 index).2 ++ c2)).2) := by
    intro n
    induction n with
    | zero =>
        intro index hn hle
        exact hkey index hle (by rw [PhysicalLayer.unpackScan,
          dif_neg (by omega)])
    | succ n ih =>
        intro index hn hle
        by_cases h5 : index + 5 ≤ c1.length
        · have h5F : index + 5 ≤ (c1 ++ c2).length := by
            rw [List.length_append]
            omega
          have f0 : (c1 ++ c2).getD index 0 = c1.getD index 0 :=
            getD_append_lt c1 c2 index (by omega)
          have f1 : (c1 ++ c2).getD (index + 1) 0 = c1.getD (index + 1) 0 :=
            getD_append_lt c1 c2 (index + 1) (by omega)
          have f2 : (c1 ++ c2).getD (index + 2) 0 = c1.getD (index + 2) 0 :=
            getD_append_lt c1 c2 (index + 2) (by omega)
          have f3 : (c1 ++ c2).getD (index + 3) 0 = c1.getD (index + 3) 0 :=
            getD_append_lt c1 c2 (index + 3) (by omega)
          by_cases hH : c1.getD index 0 = 0xA5 ∧ c1.getD (index + 1) 0 = 0x5A
          · by_cases hbr : index +
                (4 + (c1.getD (index + 2) 0 + c1.getD (index + 3) 0 * 256)) >
                c1.length
            · exact hkey index hle (by rw [PhysicalLayer.unpackScan,
                dif_pos h5, if_pos hH, if_pos hbr])
            · have hts : ((c1 ++ c2).drop index).take
                  (4 + (c1.getD (index + 2) 0 + c1.getD (index + 3) 0 * 256) - 1)
                  = (c1.drop index).take
                    (4 + (c1.getD (index + 2) 0 + c1.getD (index + 3) 0 * 256)
                      - 1) := by
                rw [drop_append_le c1 c2 index hle,
                  take_append_le _ c2 _ (by rw [List.length_drop]; omega)]
              have htk : ((c1 ++ c2).drop index).take
                  (4 + (c1.getD (index + 2) 0 + c1.getD (index + 3) 0 * 256))
                  = (c1.drop index).take
                    (4 + (c1.getD (index + 2) 0 + c1.getD (index + 3) 0 * 256))
                  := by
                rw [drop_append_le c1 c2 index hle,
                  take_append_le _ c2 _ (by rw [List.length_drop]; omega)]
              have hgd : (c1 ++ c2).getD
                  (index + (4 + (c1.getD (index + 2) 0 +
                    c1.getD (index + 3) 0 * 256)) - 1) 0 =
                  c1.getD (index + (4 + (c1.getD (index + 2) 0 +
                    c1.getD (index + 3) 0 * 256)) - 1) 0 :=
                getD_append_lt c1 c2 _ (by omega)
              by_cases hcs : ((c1.drop index).take
                  (4 + (c1.getD (index + 2) 0 + c1.getD (index + 3) 0 * 256)
                    - 1)).sum % 256 =
                  c1.getD (index + (4 + (c1.getD (index + 2) 0 +
                    c1.getD (index + 3) 0 * 256)) - 1) 0
              · have hrecc1 : PhysicalLayer.unpackScan c1 index =
                    ((c1.drop index).take (4 + (c1.getD (index + 2) 0 +
                        c1.getD (index + 3) 0 * 256)) ::
                      (PhysicalLayer.unpackScan c1 (index +
                        (4 + (c1.getD (index + 2) 0 +
                          c1.getD (index + 3) 0 * 256)))).1,
                     (PhysicalLayer.unpackScan c1 (index +
                       (4 + (c1.getD (index + 2) 0 +
                         c1.getD (index + 3) 0 * 256)))).2) := by
                  rw [PhysicalLayer.unpackScan, dif_pos h5, if_pos hH,
                    if_neg hbr, if_pos hcs]
                rw [PhysicalLayer.unpackScan, dif_pos h5F]
                simp only [f0, f1, f2, f3, hts, htk, hgd]
                rw [if_pos hH, if_neg (show ¬ index +
                  (4 + (c1.getD (index + 2) 0 + c1.getD (index + 3) 0 * 256)) >
                  (c1 ++ c2).length from by rw [List.length_append]; omega),
                  if_pos hcs]
                rw [ih (index + (4 + (c1.getD (index + 2) 0 +
                  c1.getD (index + 3) 0 * 256))) (by omega) (by omega)]
                rw [hrecc1]
                simp only [List.cons_append]
              · have hstepc1 : PhysicalLayer.unpackScan c1 index =
                    PhysicalLayer.unpackScan c1 (index + 1) := by
                  rw [PhysicalLayer.unpackScan, dif_pos h5, if_pos hH,
                    if_neg hbr, if_neg hcs]
                have hstepF : PhysicalLayer.unpackScan (c1 ++ c2) index =
                    PhysicalLayer.unpackScan (c1 ++ c2) (index + 1) := by
                  rw [PhysicalLayer.unpackScan, dif_pos h5F]
                  simp only [f0, f1, f2, f3, hts, hgd]
                  rw [if_pos hH, if_neg (show ¬ index +
                    (4 + (c1.getD (index + 2) 0 + c1.getD (index + 3) 0 * 256)) >
                    (c1 ++ c2).length from by rw [List.length_append]; omega),
                    if_neg hcs]
                rw [hstepF, hstepc1]
                exact ih (index + 1) (by omega) (by omega)
          · have hstepc1 : PhysicalLayer.unpackScan c1 index =
                PhysicalLayer.unpackScan c1 (index + 1) := by
              rw [PhysicalLayer.unpackScan, dif_pos h5, if_neg hH]
            have hstepF : PhysicalLayer.unpackScan (c1 ++ c2) index =
                PhysicalLayer.unpackScan (c1 ++ c2) (index + 1) := by
              rw [PhysicalLayer.unpackScan, dif_pos h5F]
              simp only [f0, f1]
              rw [if_neg hH]
            rw [hstepF, hstepc1]
            exact ih (index + 1) (by omega) (by omega)
        · exact hkey index hle (by rw [PhysicalLayer.unpackScan, dif_neg h5])
  exact fun index hle => H (c1.length - index) index le_rfl hle

/-- Rescanning a remainder left by the scanner finds nothing new: the
remainder is either shorter than a minimal frame or starts with an
incomplete candidate frame. -/
theorem unpackScan_remain_stable (data : List Nat) :
    ∀ index, index ≤ data.length →
      PhysicalLayer.unpackWithRemain ((PhysicalLayer.unpackScan data index).2) =
        ([], (PhysicalLayer.unpackScan data index).2) := by
  have H : ∀ (n index : Nat), data.length - index ≤ n → index ≤ data.length →
      PhysicalLayer.unpackWithRemain ((PhysicalLayer.unpackScan data index).2) =
        ([], (PhysicalLayer.unpackScan data index).2) := by
    intro n
    induction n with
    | zero =>
        intro index hn hle
        rw [show PhysicalLayer.unpackScan data index = ([], data.drop index)
          from by rw [PhysicalLayer.unpackScan, dif_neg (by omega)]]
        rw [PhysicalLayer.unpackWithRemain, PhysicalLayer.unpackScan,
          dif_neg (by rw [List.length_drop]; omega)]
        rfl
    | succ n ih =>
        intro index hn hle
        by_cases h5 : index + 5 ≤ data.length
        · have e0 : (data.drop index).getD 0 0 = data.getD index 0 := by
            rw [getD_drop_eq, Nat.add_zero]
          have e1 : (data.drop index).getD 1 0 = data.getD (index + 1) 0 := by
            rw [getD_drop_eq]
          have e2 : (data.drop index).getD 2 0 = data.getD (index + 2) 0 := by
            rw [getD_drop_eq]
          have e3 : (data.drop index).getD 3 0 = data.getD (index + 3) 0 := by
            rw [getD_drop_eq]
          by_cases hH : data.getD index 0 = 0xA5 ∧ data.getD (index + 1) 0 = 0x5A
          · by_cases hbr : index +
                (4 + (data.getD (index + 2) 0 + data.getD (index + 3) 0 * 256)) >
                data.length
            · rw [show PhysicalLayer.unpackScan data index =
                  ([], data.drop index) from by
                rw [PhysicalLayer.unpackScan, dif_pos h5, if_pos hH, if_pos hbr]]
              rw [PhysicalLayer.unpackWithRemain, PhysicalLayer.unpackScan,
                dif_pos (by rw [List.length_drop]; omega)]
              simp only [Nat.zero_add, e0, e1, e2, e3]
              rw [if_pos hH, if_pos (show
                4 + (data.getD (index + 2) 0 + data.getD (index + 3) 0 * 256) >
                  (data.drop index).length from by rw [List.length_drop]; omega)]
              rfl
            · by_cases hcs : ((data.drop index).take
                  (4 + (data.getD (index + 2) 0 + data.getD (index + 3) 0 * 256)
                    - 1)).sum % 256 =
                  data.getD (index +
                    (4 + (data.getD (index + 2) 0 + data.getD (index + 3) 0 * 256))
                    - 1) 0
              · rw [show PhysicalLayer.unpackScan data index =
                    ((data.drop index).take (4 + (data.getD (index + 2) 0 +
                        data.getD (index + 3) 0 * 256)) ::
                      (PhysicalLayer.unpackScan data (index +
                        (4 + (data.getD (index + 2) 0 +
                          data.getD (index + 3) 0 * 256)))).1,
                     (PhysicalLayer.unpackScan data (index +
                       (4 + (data.getD (index + 2) 0 +
                         data.getD (index + 3) 0 * 256)))).2) from by
                  rw [PhysicalLayer.unpackScan, dif_pos h5, if_pos hH,
                    if_neg hbr, if_pos hcs]]
                exact ih (index + (4 + (data.getD (index + 2) 0 +
                  data.getD (index + 3) 0 * 256))) (by omega) (by omega)
              · rw [show PhysicalLayer.unpackScan data index =
                    PhysicalLayer.unpackScan data (index + 1) from by
                  rw [PhysicalLayer.unpackScan, dif_pos h5, if_pos hH,
                    if_neg hbr, if_neg hcs]]
                exact ih (index + 1) (by omega) (by omega)
          · rw [show PhysicalLayer.unpackScan data index =
                PhysicalLayer.unpackScan data (index + 1) from by
              rw [PhysicalLayer.unpackScan, dif_pos h5, if_neg hH]]
            exact ih (index + 1) (by omega) (by omega)
        · rw [show PhysicalLayer.unpackScan data index = ([], data.drop index)
            from by rw [PhysicalLayer.unpackScan, dif_neg h5]]
          rw [PhysicalLayer.unpackWithRemain, PhysicalLayer.unpackScan,
            dif_neg (by rw [List.length_drop]; omega)]
          rfl
  exact fun index hle => H (data.length - index) index le_rfl hle

/-- Folding the `handleReceivedData` step over a chunk list starting from a
stable buffer `r` accumulates exactly the frames of one scan of the whole
stream. -/
theorem feedChunks_foldl (cs : List (List Nat)) :
    ∀ (F : List (List Nat)) (r : List Nat),
      PhysicalLayer.unpackWithRemain r = ([], r) →
      cs.foldl
        (fun st c =>
          let r := PhysicalLayer.unpackWithRemain (st.2 ++ c)
          (st.1 ++ r.1, r.2)) (F, r) =
        (F ++ (PhysicalLayer.unpackWithRemain (r ++ cs.flatten)).1,
         (PhysicalLayer.unpackWithRemain (r ++ cs.flatten)).2) := by
  induction cs with
  | nil =>
      intro F r hr
      simp only [List.foldl_nil, List.flatten_nil, List.append_nil, hr,
        List.append_nil]
  | cons c cs ih =>
      intro F r hr
      have hstable : PhysicalLayer.unpackWithRemain
          ((PhysicalLayer.unpackWithRemain (r ++ c)).2) =
          ([], (PhysicalLayer.unpackWithRemain (r ++ c)).2) := by
        rw [PhysicalLayer.unpackWithRemain]
        exact unpackScan_remain_stable (r ++ c) 0 (by omega)
      rw [List.foldl_cons]
      rw [ih (F ++ (PhysicalLayer.unpackWithRemain (r ++ c)).1)
        ((PhysicalLayer.unpackWithRemain (r ++ c)).2) hstable]
      rw [List.flatten_cons, show r ++ (c ++ cs.flatten) =
        (r ++ c) ++ cs.flatten from by rw [List.append_assoc]]
      simp only [PhysicalLayer.unpackWithRemain]
      rw [unpackScan_append (r ++ c) cs.flatten 0 (by omega)]
      rw [List.append_assoc]
      rfl

/-- A 4-byte little-endian endpoint encoding has 4 bytes. -/
theorem enc4_length (n : Nat) : (CommandUtils.enc4 n).length = 4 := by
  simp [CommandUtils.enc4]

/-- `flatEnc` distributes over a cons. -/
theorem flatEnc_cons (r : Nat × Nat) (rs : List (Nat × Nat)) :
    CommandUtils.flatEnc (r :: rs) =
      (CommandUtils.enc4 r.1 ++ CommandUtils.enc4 r.2) ++
        CommandUtils.flatEnc rs := by
  simp [CommandUtils.flatEnc]

/-- `flatEnc` distributes over appending one range. -/
theorem flatEnc_append_single (rs : List (Nat × Nat)) (r : Nat × Nat) :
    CommandUtils.flatEnc (rs ++ [r]) =
      CommandUtils.flatEnc rs ++
        (CommandUtils.enc4 r.1 ++ CommandUtils.enc4 r.2) := by
  simp [CommandUtils.flatEnc]

/-- A range list encodes to 8 bytes per range. -/
theorem flatEnc_length (rs : List (Nat × Nat)) :
    (CommandUtils.flatEnc rs).length = 8 * rs.length := by
  induction rs with
  | nil => rfl
  | cons r rs ih =>
      rw [flatEnc_cons, List.length_append, List.length_append, enc4_length,
        enc4_length, ih, List.length_cons]
      omega

/-- Decoding the byte image of a range list with in-range endpoints recovers
the list. -/
theorem decodeChunk_flatEnc (rs : List (Nat × Nat))
    (hb : ∀ r ∈ rs, r.1 < 4294967296 ∧ r.2 < 4294967296) :
    CommandUtils.decodeChunk (CommandUtils.flatEnc rs) = rs := by
  induction rs with
  | nil => rfl
  | cons r rs ih =>
      obtain ⟨s, e⟩ := r
      obtain ⟨h1, h2⟩ := hb (s, e) (List.mem_cons_self (s, e) rs)
      rw [flatEnc_cons]
      simp only [CommandUtils.enc4, List.cons_append, List.nil_append]
      rw [CommandUtils.decodeChunk]
      rw [ih (fun q hq => hb q (List.mem_cons_of_mem (s, e) hq))]
      simp only [List.cons.injEq, Prod.mk.injEq, CommandUtils.dec4]
      exact ⟨⟨by omega, by omega⟩, trivial⟩

/-- Two `pushNumber` steps on a state holding the image of at most 24 ranges
append the new range, emitting a packet exactly when this fills the 25th
range. -/
theorem pushNumber_pair (P : List (List Nat)) (rs : List (Nat × Nat))
    (s e : Nat) (hk : rs.length ≤ 24) :
    CommandUtils.pushNumber (CommandUtils.pushNumber
        (P, CommandUtils.flatEnc rs) s) e =
      if rs.length = 24 then
        (P ++ [CommandUtils.mkPacket (CommandUtils.flatEnc (rs ++ [(s, e)]))], [])
      else (P, CommandUtils.flatEnc (rs ++ [(s, e)])) := by
  have hlen1 : (CommandUtils.flatEnc rs ++ CommandUtils.enc4 s).length =
      8 * rs.length + 4 := by
    rw [List.length_append, flatEnc_length, enc4_length]
  have hlen2 : ((CommandUtils.flatEnc rs ++ CommandUtils.enc4 s) ++
      CommandUtils.enc4 e).length = 8 * rs.length + 8 := by
    rw [List.length_append, hlen1, enc4_length]
  have hchunk : (CommandUtils.flatEnc rs ++ CommandUtils.enc4 s) ++
      CommandUtils.enc4 e = CommandUtils.flatEnc (rs ++ [(s, e)]) := by
    rw [flatEnc_append_single, List.append_assoc]
  show CommandUtils.pushNumber
      (if 200 ≤ (CommandUtils.flatEnc rs ++ CommandUtils.enc4 s).length
        then (P ++ [CommandUtils.mkPacket
          (CommandUtils.flatEnc rs ++ CommandUtils.enc4 s)], [])
        else (P, CommandUtils.flatEnc rs ++ CommandUtils.enc4 s)) e = _
  rw [if_neg (by rw [hlen1]; omega)]
  show (if 200 ≤ ((CommandUtils.flatEnc rs ++ CommandUtils.enc4 s) ++
        CommandUtils.enc4 e).length
      then (P ++ [CommandUtils.mkPacket ((CommandUtils.flatEnc rs ++
        CommandUtils.enc4 s) ++ CommandUtils.enc4 e)], [])
      else (P, (CommandUtils.flatEnc rs ++ CommandUtils.enc4 s) ++
        CommandUtils.enc4 e)) = _
  by_cases h24 : rs.length = 24
  · rw [if_pos (show (200 : Nat) ≤ _ from by rw [hlen2]; omega), if_pos h24,
      hchunk]
  · rw [if_neg (show ¬ (200 : Nat) ≤ _ from by rw [hlen2]; omega), if_neg h24,
      hchunk]

/-- Invariant of the `convertSegmentsToPackets` fold: starting from emitted
packets `P` and a buffered chunk holding at most 24 in-range ranges, the fold
only emits well-formed packets and the decoded packets plus the final chunk
carry exactly the consumed ranges in order. -/
theorem segPackets_fold (segs : List (Nat × Nat)) :
    ∀ (P : List (List Nat)) (rs : List (Nat × Nat)),
      rs.length ≤ 24 →
      (∀ r ∈ rs, r.1 < 4294967296 ∧ r.2 < 4294967296) →
      (∀ r ∈ segs, r.1 < 4294967296 ∧ r.2 < 4294967296) →
      (∀ p ∈ P, ∃ qs : List (Nat × Nat), qs ≠ [] ∧ qs.length ≤ 25 ∧
        (∀ r ∈ qs, r.1 < 4294967296 ∧ r.2 < 4294967296) ∧
        p = CommandUtils.mkPacket (CommandUtils.flatEnc qs)) →
      ∃ (P' : List (List Nat)) (rs' : List (Nat × Nat)),
        segs.foldl (fun st seg =>
            CommandUtils.pushNumber (CommandUtils.pushNumber st seg.1) seg.2)
          (P, CommandUtils.flatEnc rs) = (P', CommandUtils.flatEnc rs') ∧
        rs'.length ≤ 24 ∧
        (∀ r ∈ rs', r.1 < 4294967296 ∧ r.2 < 4294967296) ∧
        (∀ p ∈ P', ∃ qs : List (Nat × Nat), qs ≠ [] ∧ qs.length ≤ 25 ∧
          (∀ r ∈ qs, r.1 < 4294967296 ∧ r.2 < 4294967296) ∧
          p = CommandUtils.mkPacket (CommandUtils.flatEnc qs)) ∧
        (P'.map CommandUtils.decodePacket).flatten ++ rs' =
          (P.map CommandUtils.decodePacket).flatten ++ rs ++ segs := by
  induction segs with
  | nil =>
      intro P rs hk hbrs _ hwf
      exact ⟨P, rs, by rw [List.foldl_nil], hk, hbrs, hwf, by
        rw [List.append_nil]⟩
  | cons seg segs ih =>
      intro P rs hk hbrs hbsegs hwf
      obtain ⟨s, e⟩ := seg
      obtain ⟨hs, he⟩ := hbsegs (s, e) (List.mem_cons_self (s, e) segs)
      have hbsegs' : ∀ r ∈ segs, r.1 < 4294967296 ∧ r.2 < 4294967296 :=
        fun r hr => hbsegs r (List.mem_cons_of_mem (s, e) hr)
      have hbrs1 : ∀ r ∈ rs ++ [(s, e)],
          r.1 < 4294967296 ∧ r.2 < 4294967296 := by
        intro r hr
        rcases List.mem_append.mp hr with hr | hr
        · exact hbrs r hr
        · rcases List.mem_singleton.mp hr with rfl
          exact ⟨hs, he⟩
      rw [List.foldl_cons, pushNumber_pair P rs s e hk]
      by_cases h24 : rs.length = 24
      · rw [if_pos h24]
        have hq : ∀ p ∈ P ++ [CommandUtils.mkPacket
            (CommandUtils.flatEnc (rs ++ [(s, e)]))],
            ∃ qs : List (Nat × Nat), qs ≠ [] ∧ qs.length ≤ 25 ∧
              (∀ r ∈ qs, r.1 < 4294967296 ∧ r.2 < 4294967296) ∧
              p = CommandUtils.mkPacket (CommandUtils.flatEnc qs) := by
          intro p hp
          rcases List.mem_append.mp hp with hp | hp
          · exact hwf p hp
          · rcases List.mem_singleton.mp hp with rfl
            exact ⟨rs ++ [(s, e)], by simp, by
              rw [List.length_append, List.length_singleton]; omega, hbrs1, rfl⟩
        obtain ⟨P', rs', hfold, hk', hb', hwf', hdec⟩ :=
          ih (P ++ [CommandUtils.mkPacket
            (CommandUtils.flatEnc (rs ++ [(s, e)]))]) []
            (by simp) (by simp) hbsegs' hq
        refine ⟨P', rs', ?_, hk', hb', hwf', ?_⟩
        · exact hfold
        · rw [hdec]
          rw [List.map_append, List.flatten_append]
          simp only [List.map_cons, List.map_nil, List.flatten_cons,
            List.flatten_nil, List.append_nil]
          rw [show CommandUtils.decodePacket (CommandUtils.mkPacket
              (CommandUtils.flatEnc (rs ++ [(s, e)]))) = rs ++ [(s, e)] from by
            rw [CommandUtils.decodePacket, CommandUtils.mkPacket,
              List.drop_succ_cons, List.drop_succ_cons, List.drop_zero]
            exact decodeChunk_flatEnc _ hbrs1]
          simp only [List.append_assoc, List.nil_append, List.cons_append,
            List.singleton_append]
      · rw [if_neg h24]
        obtain ⟨P', rs', hfold, hk', hb', hwf', hdec⟩ :=
          ih P (rs ++ [(s, e)])
            (by rw [List.length_append, List.length_singleton]; omega)
            hbrs1 hbsegs' hwf
        refine ⟨P', rs', hfold, hk', hb', hwf', ?_⟩
        rw [hdec]
        simp only [List.append_assoc, List.cons_append, List.singleton_append,
          List.nil_append]

end Helpers

/-- **C10.** The application framing codec stores the payload length (and the
frame index) reduced mod 256 in a single byte: for payloads of at most 255
bytes `unpack (pack P i)` recovers frame index `i % 256` and payload `P`;
for longer payloads the stored length byte cannot equal the actual length and
`unpack` returns the empty result. -/
theorem applicationLayer_pack_unpack_spec (P : List Nat) (i : Nat) :
    DefaultApplicationLayer.unpack (DefaultApplicationLayer.pack P i) =
      if P.length ≤ 255 then ⟨i % 256, P⟩ else ⟨0, []⟩ := by
  unfold DefaultApplicationLayer.pack DefaultApplicationLayer.unpack
  simp only [List.length_cons, List.getD_cons_succ, List.getD_cons_zero,
    List.drop_succ_cons, List.drop_zero]
  by_cases h : P.length ≤ 255
  · rw [if_neg (by omega), if_neg (by omega), if_pos h]
  · rw [if_neg (by omega), if_pos (by omega), if_neg h]

/-- **C6.** `checkXorValidation(request, response)` returns `true` iff both
arrays are non-empty, the leading opcode bytes agree, the bodies have equal
length, and every response body byte is the request body byte XOR `0x5A`;
moreover changing any single byte of an accepted response makes it
rejected. -/
theorem checkXorValidation_spec :
    (∀ req resp : List Nat,
      BluetoothKeySDK.checkXorValidation req resp = true ↔
        (req ≠ [] ∧ resp ≠ [] ∧ resp.getD 0 0 = req.getD 0 0 ∧
          (resp.drop 1).length = (req.drop 1).length ∧
          ∀ j, j < (req.drop 1).length →
            (resp.drop 1).getD j 0 = Nat.xor ((req.drop 1).getD j 0) 0x5A)) ∧
    (∀ req resp resp' : List Nat, ∀ j : Nat,
      BluetoothKeySDK.checkXorValidation req resp = true →
      resp'.length = resp.length →
      j < resp.length →
      resp'.getD j 0 ≠ resp.getD j 0 →
      (∀ i, i < resp'.length → i ≠ j → resp'.getD i 0 = resp.getD i 0) →
      BluetoothKeySDK.checkXorValidation req resp' = false) := by
  have hiff : ∀ req resp : List Nat,
      BluetoothKeySDK.checkXorValidation req resp = true ↔
        (req ≠ [] ∧ resp ≠ [] ∧ resp.getD 0 0 = req.getD 0 0 ∧
          (resp.drop 1).length = (req.drop 1).length ∧
          ∀ j, j < (req.drop 1).length →
            (resp.drop 1).getD j 0 = Nat.xor ((req.drop 1).getD j 0) 0x5A) := by
    intro req resp
    unfold BluetoothKeySDK.checkXorValidation
    by_cases hreq : req.length = 0 ∨ resp.length = 0
    · rw [if_pos hreq]
      simp only [Bool.false_eq_true, false_iff]
      rintro ⟨h1, h2, -⟩
      rcases hreq with h | h
      · exact h1 (List.length_eq_zero.mp h)
      · exact h2 (List.length_eq_zero.mp h)
    · rw [if_neg hreq]
      push_neg at hreq
      by_cases hop : resp.getD 0 0 = req.getD 0 0
      · rw [if_neg (by simpa using hop)]
        by_cases hlen : (resp.drop 1).length = (req.drop 1).length
        · rw [if_neg (by simpa using hlen)]
          rw [zip_all_xor_iff (fun b => Nat.xor b 0x5A) (req.drop 1)
            (resp.drop 1) hlen]
          constructor
          · intro h
            exact ⟨fun h' => by simp [h'] at hreq,
              fun h' => by simp [h'] at hreq, hop, hlen, h⟩
          · rintro ⟨-, -, -, -, h⟩
            exact h
        · rw [if_pos (by simpa using hlen)]
          simp only [Bool.false_eq_true, false_iff]
          rintro ⟨-, -, -, h, -⟩
          exact hlen h
      · rw [if_pos (by simpa using hop)]
        simp only [Bool.false_eq_true, false_iff]
        rintro ⟨-, -, h, -⟩
        exact hop h
  refine ⟨hiff, fun req resp resp' j hacc hlen hj hdiff hsame => ?_⟩
  rcases (hiff req resp).mp hacc with ⟨hreq, hresp, hop, hblen, hbody⟩
  cases hval : BluetoothKeySDK.checkXorValidation req resp'
  · rfl
  · exfalso
    rcases (hiff req resp').mp hval with ⟨-, -, hop', hblen', hbody'⟩
    cases j with
    | zero => exact hdiff (hop'.trans hop.symm)
    | succ j' =>
        have hj' : j' < (req.drop 1).length := by
          have h1 : (resp.drop 1).length = resp.length - 1 :=
            List.length_drop 1 resp
          omega
        have h1 := hbody' j' hj'
        have h2 := hbody j' hj'
        rw [getD_drop_eq resp' 1 j'] at h1
        rw [getD_drop_eq resp 1 j'] at h2
        exact hdiff (by rw [Nat.add_comm 1 j'] at h1 h2; rw [h1, h2])

/-- Witness for C6: the connect-style request `[1, 2]` is acknowledged by
`[1, 2 XOR 0x5A] = [1, 0x58]`, and flipping the body byte to `0x59` is
rejected. -/
theorem checkXorValidation_spec_witness :
    BluetoothKeySDK.checkXorValidation [1, 2] [1, 0x59] = false :=
  checkXorValidation_spec.2 [1, 2] [1, 0x58] [1, 0x59] 1 (by decide) (by decide)
    (by decide) (by decide) (by decide)

/-- **C8.** `buildCompletePacket` bumps the per-device frame-index counter by
1 mod 256 exactly when the send's ack type is `REQUEST_WITH_ACK`; every
other ack type leaves the counter unchanged, other devices' counters are
never touched, and `buildReplyPacket` leaves the whole map unchanged. -/
theorem buildCompletePacket_frameIndex_update
    (encFn : List Nat → List Nat) (fis : String → Nat) (dev : String)
    (app : List Nat) (opts : BluetoothKeySDK.BuildOptions)
    (h : opts.frameIndex = Option.none) :
    ((BluetoothKeySDK.buildCompletePacket encFn fis dev app opts).2 dev =
      if opts.ackType = BluetoothKeySDK.TransportAckType.requestWithAck
      then (fis dev + 1) % 256 else fis dev) ∧
    (∀ d, d ≠ dev →
      (BluetoothKeySDK.buildCompletePacket encFn fis dev app opts).2 d = fis d) ∧
    (∀ (fi : Nat) (encT : BluetoothKeySDK.TransportEncryptType),
      (BluetoothKeySDK.buildReplyPacket encFn fis app fi encT).2 = fis) := by
  unfold BluetoothKeySDK.buildCompletePacket BluetoothKeySDK.buildReplyPacket
  rw [h]
  refine ⟨?_, ?_, fun fi encT => rfl⟩
  · by_cases hack : opts.ackType = BluetoothKeySDK.TransportAckType.requestWithAck
    · simp [hack, Function.update_same]
    · simp [hack]
  · intro d hd
    by_cases hack : opts.ackType = BluetoothKeySDK.TransportAckType.requestWithAck
    · simp [hack, Function.update_noteq hd]
    · simp [hack]

/-- Witness for C8: with counter 0 and a default (REQUEST_WITH_ACK) send the
device's counter becomes 1. -/
theorem buildCompletePacket_frameIndex_update_witness :
    (BluetoothKeySDK.buildCompletePacket id (fun _ => 0) "dev" []
        ⟨Option.none, 0x01, BluetoothKeySDK.TransportAckType.requestWithAck,
          BluetoothKeySDK.TransportEncryptType.encrypt⟩).2 "dev" =
      if BluetoothKeySDK.TransportAckType.requestWithAck =
          BluetoothKeySDK.TransportAckType.requestWithAck
      then ((fun (_ : String) => 0) "dev" + 1) % 256
      else (fun (_ : String) => 0) "dev" :=
  (buildCompletePacket_frameIndex_update id (fun _ => 0) "dev" [] _ rfl).1

/-- **C2** (code bug): on a device-initiated disconnect with one pending
waiter (id 100, frame index 0), `_handleDeviceDisconnected` drops the
`pendingFrameResponses` map without rejecting the waiter and without clearing
its timeout timer, whereas `disconnectDevice` (via
`clearPendingFrameResponses`) rejects it with the connection-closed error and
clears its timer. -/
theorem handleDeviceDisconnected_leaves_waiters_unrejected :
    (BluetoothKeySDK.handleDeviceDisconnected ⟨[(0, 100)], [100]⟩).1 = [] ∧
    (BluetoothKeySDK.handleDeviceDisconnected
        ⟨[(0, 100)], [100]⟩).2.waiterTimersActive = [100] ∧
    (BluetoothKeySDK.disconnectDevice ⟨[(0, 100)], [100]⟩).1 =
      [(100, BluetoothKeySDK.RejectReason.connectionClosed)] ∧
    (BluetoothKeySDK.disconnectDevice
        ⟨[(0, 100)], [100]⟩).2.waiterTimersActive = [] := by
  decide

/-- Counterexample for C4: the valid 8-byte device-info report
`[0x06, 1, 5, 2, 1, 0, 0, 0]` arriving on frame index 3 is a device report,
but the code replies `[0x05, 0x01]`, not `[opcode, 0x01] = [0x06, 0x01]`. -/
theorem handleRequestWithAckData_sysparam_reply_counterexample :
    BluetoothKeySDK.isDeviceReport [0x06, 1, 5, 2, 1, 0, 0, 0] = true ∧
    (BluetoothKeySDK.handleRequestWithAckData 3
        [0x06, 1, 5, 2, 1, 0, 0, 0]).reply ≠ some ([0x06, 0x01], 3) ∧
    (BluetoothKeySDK.handleRequestWithAckData 3
        [0x06, 1, 5, 2, 1, 0, 0, 0]).reply = some ([0x05, 0x01], 3) := by
  decide

/-- **C4** (amended): an inbound REQUEST_WITH_ACK message recognized by
`isDeviceReport` is answered on the SAME frame index with `[0x07, 0x01]` for
`UPLOAD_STATUS (0x07)` but `[0x05, 0x01]` for the device-info report opcode
`GET_SYS_PARAM (0x06)`; the report events (`deviceReport`,
`lockStatusReport`, `deviceInfoReport`) are emitted when the report payload
has the correct length, otherwise a single error event is emitted; no waiter
is resolved and the key is unchanged. -/
theorem handleRequestWithAckData_report_reply_spec (fi : Nat) (data : List Nat)
    (h : BluetoothKeySDK.isDeviceReport data = true) :
    (BluetoothKeySDK.handleRequestWithAckData fi data).reply =
      some ((if data.headD 0 = 0x07 then [0x07, 0x01] else [0x05, 0x01]), fi) ∧
    (BluetoothKeySDK.handleRequestWithAckData fi data).events =
      (if BluetoothKeySDK.parseDeviceStatusReportOk data then
        [BluetoothKeySDK.EventKind.deviceReport,
         BluetoothKeySDK.EventKind.lockStatusReport,
         BluetoothKeySDK.EventKind.deviceInfoReport]
      else [BluetoothKeySDK.EventKind.errorEvent]) ∧
    (BluetoothKeySDK.handleRequestWithAckData fi data).resolved = Option.none ∧
    (BluetoothKeySDK.handleRequestWithAckData fi data).newKey = Option.none := by
  unfold BluetoothKeySDK.handleRequestWithAckData
  rw [if_pos h]
  refine ⟨?_, rfl, rfl, rfl⟩
  cases data with
  | nil => simp [BluetoothKeySDK.isDeviceReport] at h
  | cons c rest =>
      simp only [BluetoothKeySDK.isDeviceReport, Bool.or_eq_true,
        beq_iff_eq] at h
      rcases h with h | h <;>
        simp [h, BluetoothKeySDK.deviceActiveReplyData]

/-- Witness for C4: a well-formed 7-byte status report on frame index 2 is
answered with `[0x07, 0x01]` on frame index 2. -/
theorem handleRequestWithAckData_report_reply_spec_witness :
    (BluetoothKeySDK.handleRequestWithAckData 2 [7, 5, 2, 1, 0, 0, 0]).reply =
      some ((if ([7, 5, 2, 1, 0, 0, 0] : List Nat).headD 0 = 0x07
        then [0x07, 0x01] else [0x05, 0x01]), 2) :=
  (handleRequestWithAckData_report_reply_spec 2 [7, 5, 2, 1, 0, 0, 0]
    (by decide)).1

/-- Counterexample for C1: the duplicate lock-ID list `[1, 1]` produces the
segment list `[(1,1), (1,1)]`, whose two segments are not pairwise
disjoint. -/
theorem convertLockIdsToSegments_duplicate_counterexample :
    CommandUtils.convertLockIdsToSegments [1, 1] = [(1, 1), (1, 1)] ∧
    ¬ (CommandUtils.convertLockIdsToSegments [1, 1]).Pairwise
        (fun p q => p.2 + 1 < q.1) := by
  decide

/-- The 2-byte little-endian length field. -/
theorem intToLittleEndian_two (v : Nat) :
    PhysicalLayer.intToLittleEndian v 2 = [v % 256, v / 256 % 256] := by
  simp [PhysicalLayer.intToLittleEndian, List.range_succ]

/-- Reading the element just past `l` in `l ++ [c]`. -/
theorem getD_append_length (l : List Nat) (c : Nat) :
    (l ++ [c]).getD l.length 0 = c := by
  induction l with
  | nil => rfl
  | cons x xs ih =>
      simp only [List.cons_append, List.length_cons, List.getD_cons_succ]
      exact ih

/-- The explicit byte layout of a packed physical frame. -/
theorem physPack_eq (P : List Nat) :
    PhysicalLayer.pack P =
      0xA5 :: 0x5A :: ((P.length + 1) % 256) :: ((P.length + 1) / 256 % 256) ::
        (P ++ [(0xA5 + 0x5A + ((P.length + 1) % 256 + (P.length + 1) / 256 % 256)
          + P.sum) % 256]) := by
  simp [PhysicalLayer.pack, intToLittleEndian_two]

/-- **C3** (amended): for payloads of at most 65534 bytes, the scanner
recovers exactly the packed frame with empty remainder, the receive path
extracts exactly the payload, and the packed frame is 5 bytes longer than
the payload (the length conjunct holds for every payload, the recovery needs
the length field not to overflow its 16 bits — see the counterexample). -/
theorem physicalLayer_roundtrip_bounded (P : List Nat)
    (_hbytes : ∀ x ∈ P, x < 256) (hlen : P.length ≤ 65534) :
    PhysicalLayer.unpackWithRemain (PhysicalLayer.pack P) =
      ([PhysicalLayer.pack P], []) ∧
    BluetoothKeySDK.processPhysicalFrame (PhysicalLayer.pack P) = some P ∧
    BluetoothKeySDK.unpackPayloads (PhysicalLayer.pack P) = [P] ∧
    (PhysicalLayer.pack P).length = P.length + 5 := by
  set l0 := (P.length + 1) % 256 with hl0
  set l1 := (P.length + 1) / 256 % 256 with hl1
  set ck := (0xA5 + 0x5A + (l0 + l1) + P.sum) % 256 with hck
  have hsplit : PhysicalLayer.pack P = (0xA5 :: 0x5A :: l0 :: l1 :: P) ++ [ck] := by
    rw [physPack_eq]
    simp only [← hl0, ← hl1, ← hck]
    rfl
  have hfrontlen : (0xA5 :: 0x5A :: l0 :: l1 :: P).length = P.length + 4 := by
    simp
  have hDlen : (PhysicalLayer.pack P).length = P.length + 5 := by
    rw [hsplit]
    simp
  have hg0 : (PhysicalLayer.pack P).getD 0 0 = 0xA5 := by rw [hsplit]; rfl
  have hg1 : (PhysicalLayer.pack P).getD 1 0 = 0x5A := by rw [hsplit]; rfl
  have hparse : (PhysicalLayer.pack P).getD 2 0 +
      (PhysicalLayer.pack P).getD 3 0 * 256 = P.length + 1 := by
    rw [hsplit]
    simp only [List.cons_append, List.getD_cons_succ, List.getD_cons_zero]
    omega
  have hfront : (PhysicalLayer.pack P).take (P.length + 4) =
      0xA5 :: 0x5A :: l0 :: l1 :: P := by
    rw [hsplit, List.take_left' hfrontlen]
  have hcksum : ((PhysicalLayer.pack P).take (P.length + 4)).sum % 256 =
      (PhysicalLayer.pack P).getD (P.length + 4) 0 := by
    rw [hfront, hsplit, ← hfrontlen, getD_append_length]
    simp only [List.sum_cons, hck]
    omega
  have hscan : PhysicalLayer.unpackWithRemain (PhysicalLayer.pack P) =
      ([PhysicalLayer.pack P], []) := by
    rw [PhysicalLayer.unpackWithRemain, PhysicalLayer.unpackScan,
      dif_pos (show 0 + 5 ≤ (PhysicalLayer.pack P).length from by omega),
      if_pos (show (PhysicalLayer.pack P).getD 0 0 = 0xA5 ∧
        (PhysicalLayer.pack P).getD (0 + 1) 0 = 0x5A from ⟨hg0, hg1⟩)]
    simp only [Nat.zero_add, hparse, List.drop_zero]
    rw [if_neg (show ¬ 4 + (P.length + 1) > (PhysicalLayer.pack P).length
      from by omega)]
    rw [show 4 + (P.length + 1) - 1 = P.length + 4 from by omega]
    rw [if_pos hcksum]
    rw [show (4 : Nat) + (P.length + 1) = (PhysicalLayer.pack P).length
      from by omega]
    rw [List.take_length]
    rw [PhysicalLayer.unpackScan,
      dif_neg (show ¬ (PhysicalLayer.pack P).length + 5 ≤
        (PhysicalLayer.pack P).length from by omega)]
    simp
  have hproc : BluetoothKeySDK.processPhysicalFrame (PhysicalLayer.pack P) =
      some P := by
    rw [BluetoothKeySDK.processPhysicalFrame]
    rw [if_neg (show ¬ (PhysicalLayer.pack P).length < 5 from by omega)]
    simp only [hparse]
    rw [if_neg (show ¬ (PhysicalLayer.pack P).length ≠ 4 + (P.length + 1)
      from by omega)]
    rw [show P.length + 1 - 1 = P.length from by omega]
    rw [hsplit]
    simp only [List.cons_append, List.drop_succ_cons, List.drop_zero]
    rw [List.take_left]
  refine ⟨hscan, hproc, ?_, hDlen⟩
  rw [BluetoothKeySDK.unpackPayloads, hscan]
  simp [hproc]

/-- Witness for C3: the 3-byte payload `[1, 2, 3]` round-trips through the
physical layer. -/
theorem physicalLayer_roundtrip_bounded_witness :
    PhysicalLayer.unpackWithRemain (PhysicalLayer.pack [1, 2, 3]) =
      ([PhysicalLayer.pack [1, 2, 3]], []) ∧
    BluetoothKeySDK.processPhysicalFrame (PhysicalLayer.pack [1, 2, 3]) =
      some [1, 2, 3] ∧
    BluetoothKeySDK.unpackPayloads (PhysicalLayer.pack [1, 2, 3]) = [[1, 2, 3]] ∧
    (PhysicalLayer.pack [1, 2, 3]).length = ([1, 2, 3] : List Nat).length + 5 :=
  physicalLayer_roundtrip_bounded [1, 2, 3] (by decide) (by decide)

/-- If no byte at or after the scan position equals the first header byte
`0xA5`, the scan finds no frame. -/
theorem unpackScan_frames_nil_of_no_header (data : List Nat) :
    ∀ index, (∀ i, index ≤ i → data.getD i 0 ≠ 0xA5) →
      (PhysicalLayer.unpackScan data index).1 = [] := by
  have H : ∀ (n index : Nat), data.length - index ≤ n →
      (∀ i, index ≤ i → data.getD i 0 ≠ 0xA5) →
      (PhysicalLayer.unpackScan data index).1 = [] := by
    intro n
    induction n with
    | zero =>
        intro index hle _
        rw [PhysicalLayer.unpackScan, dif_neg (by omega)]
    | succ n ih =>
        intro index hle hno
        rw [PhysicalLayer.unpackScan]
        by_cases h5 : index + 5 ≤ data.length
        · rw [dif_pos h5, if_neg (fun h => hno index le_rfl h.1)]
          exact ih (index + 1) (by omega) (fun i hi => hno i (by omega))
        · rw [dif_neg h5]
  exact fun index => H (data.length - index) index le_rfl

/-- A list without `0xA5` entries never reads `0xA5` at any position
(the out-of-range default is `0`). -/
theorem getD_ne_of_all_ne (l : List Nat) (hl : ∀ x ∈ l, x ≠ 0xA5) :
    ∀ j, l.getD j 0 ≠ 0xA5 := by
  induction l with
  | nil =>
      intro j
      simp
  | cons x xs ih =>
      intro j
      cases j with
      | zero => simpa using hl x (List.mem_cons_self x xs)
      | succ j' =>
          simp only [List.getD_cons_succ]
          exact ih (fun y hy => hl y (List.mem_cons_of_mem x hy)) j'

/-- Any payload whose length field wraps to `00 00` (length exactly 65535)
and which contains no `0xA5` byte is never recovered by the scanner: the
candidate frame at index 0 fails its checksum and no later header match
exists. -/
theorem unpackScan_length_overflow (P : List Nat) (hlen : P.length = 65535)
    (hno : ∀ x ∈ P, x ≠ 0xA5)
    (hcs : (0xA5 + 0x5A + ((0 : Nat) + 0) + P.sum) % 256 ≠ 0xA5) :
    (PhysicalLayer.unpackWithRemain (PhysicalLayer.pack P)).1 = [] := by
  have hD : PhysicalLayer.pack P =
      0xA5 :: 0x5A :: 0 :: 0 ::
        (P ++ [(0xA5 + 0x5A + ((0 : Nat) + 0) + P.sum) % 256]) := by
    rw [physPack_eq, hlen]
  have hDlen : (PhysicalLayer.pack P).length = 65540 := by
    rw [hD]
    simp [hlen]
  have h0 : (PhysicalLayer.pack P).getD 0 0 = 0xA5 := by rw [hD]; rfl
  have h1 : (PhysicalLayer.pack P).getD (0 + 1) 0 = 0x5A := by rw [hD]; rfl
  have h2 : (PhysicalLayer.pack P).getD 2 0 = 0 := by rw [hD]; rfl
  have h3 : (PhysicalLayer.pack P).getD 3 0 = 0 := by rw [hD]; rfl
  have htail : ∀ i, 1 ≤ i → (PhysicalLayer.pack P).getD i 0 ≠ 0xA5 := by
    intro i hi
    rw [hD]
    cases i with
    | zero => omega
    | succ j =>
        simp only [List.getD_cons_succ]
        refine getD_ne_of_all_ne _ ?_ j
        intro x hx
        rcases List.mem_cons.mp hx with rfl | hx
        · norm_num
        rcases List.mem_cons.mp hx with rfl | hx
        · norm_num
        rcases List.mem_cons.mp hx with rfl | hx
        · norm_num
        rcases List.mem_append.mp hx with hx | hx
        · exact hno x hx
        · rcases List.mem_singleton.mp hx with rfl
          exact hcs
  have hstep : PhysicalLayer.unpackScan (PhysicalLayer.pack P) 0 =
      PhysicalLayer.unpackScan (PhysicalLayer.pack P) 1 := by
    rw [PhysicalLayer.unpackScan, dif_pos (by omega), if_pos ⟨h0, h1⟩]
    simp only [Nat.zero_add, h2, h3]
    rw [if_neg (by omega)]
    refine if_neg ?_
    rw [show 4 + (0 + 0 * 256) - 1 = 3 from by norm_num]
    rw [hD]
    intro hcontra
    simp only [List.drop_zero, List.take_succ_cons, List.take_zero,
      List.sum_cons, List.sum_nil, List.getD_cons_succ,
      List.getD_cons_zero] at hcontra
    omega
  rw [PhysicalLayer.unpackWithRemain, hstep]
  exact unpackScan_frames_nil_of_no_header _ 1 htail

/-- Counterexample for C3: a 65535-byte payload makes the length field
`65536` wrap to `00 00` in its two bytes, after which the scanner never
finds a valid frame — unpacking the packed frame does not yield the
payload. -/
theorem physicalLayer_roundtrip_overflow_counterexample :
    BluetoothKeySDK.unpackPayloads
        (PhysicalLayer.pack (List.replicate 65535 0)) ≠
      [List.replicate 65535 0] := by
  have hsum : ∀ n : Nat, (List.replicate n (0 : Nat)).sum = 0 := by
    intro n
    induction n with
    | zero => rfl
    | succ n ih => simp [List.replicate_succ, ih]
  have hfra := unpackScan_length_overflow (List.replicate 65535 0)
    (List.length_replicate 65535 0)
    (fun x hx => by have := List.eq_of_mem_replicate hx; omega)
    (by rw [hsum 65535]; norm_num)
  rw [BluetoothKeySDK.unpackPayloads, hfra, List.filterMap_nil]
  intro h
  exact List.noConfusion h

/-- **C5.** Feeding a byte stream to the reassembler in arbitrary consecutive
chunks — each step running `unpackWithRemain` on the previous remainder
concatenated with the next chunk, as `handleReceivedData` does — produces
exactly the frames, and the final remainder, of a single `unpackWithRemain`
run over the whole concatenation. -/
theorem feedChunks_eq_unpackWithRemain (chunks : List (List Nat)) :
    BluetoothKeySDK.feedChunks chunks =
      PhysicalLayer.unpackWithRemain chunks.flatten := by
  rw [BluetoothKeySDK.feedChunks,
    feedChunks_foldl chunks [] [] (by
      rw [PhysicalLayer.unpackWithRemain, PhysicalLayer.unpackScan,
        dif_neg (by simp)]
      rfl)]
  simp only [List.nil_append]

/-- **C9.** When the header matches at the scan position and the candidate
frame is complete but its checksum does not verify, the scan continues from
exactly one byte further: the result of scanning from `index` is literally
the result of scanning from `index + 1`, so the mismatched candidate is
discarded and never returned. -/
theorem unpackScan_checksum_mismatch_advances_one (data : List Nat)
    (index : Nat) (h5 : index + 5 ≤ data.length)
    (hh0 : data.getD index 0 = 0xA5) (hh1 : data.getD (index + 1) 0 = 0x5A)
    (hcomplete :
      index + (4 + (data.getD (index + 2) 0 + data.getD (index + 3) 0 * 256))
        ≤ data.length)
    (hbad : ((data.drop index).take
          (4 + (data.getD (index + 2) 0 + data.getD (index + 3) 0 * 256) - 1)).sum
          % 256 ≠
        data.getD
          (index + (4 + (data.getD (index + 2) 0 + data.getD (index + 3) 0 * 256))
            - 1) 0) :
    PhysicalLayer.unpackScan data index = PhysicalLayer.unpackScan data (index + 1) := by
  rw [PhysicalLayer.unpackScan]
  rw [dif_pos h5, if_pos ⟨hh0, hh1⟩, if_neg (by omega), if_neg hbad]

/-- Witness for C9: in `[A5 5A 01 00 07]` the candidate frame at index 0 is
complete but the checksum byte `07` does not match the sum `00`, so the scan
result from index 0 equals the scan result from index 1. -/
theorem unpackScan_checksum_mismatch_advances_one_witness :
    PhysicalLayer.unpackScan [0xA5, 0x5A, 1, 0, 7] 0 =
      PhysicalLayer.unpackScan [0xA5, 0x5A, 1, 0, 7] 1 :=
  unpackScan_checksum_mismatch_advances_one [0xA5, 0x5A, 1, 0, 7] 0
    (by decide) (by decide) (by decide) (by decide) (by decide)

/-- Invariants of the segment merge loop: on a strictly ascending tail lying
above the current range end, every emitted range is well-formed
(`start ≤ end`), consecutive ranges are separated by a gap of at least one
(sorted, disjoint, unmergeable), and every range starts at or above `s`. -/
theorem mergeSegLoop_invariants :
    ∀ (ys : List Int) (s e : Int), s ≤ e → List.Chain (· < ·) e ys →
      (∀ p ∈ CommandUtils.mergeSegLoop s e ys, p.1 ≤ p.2) ∧
      (CommandUtils.mergeSegLoop s e ys).Pairwise (fun p q => p.2 + 1 < q.1) ∧
      (∀ p ∈ CommandUtils.mergeSegLoop s e ys, s ≤ p.1) := by
  intro ys
  induction ys with
  | nil =>
      intro s e hse _
      refine ⟨?_, ?_, ?_⟩
      · intro p hp
        simp only [CommandUtils.mergeSegLoop, List.mem_singleton] at hp
        simp [hp, hse]
      · simp [CommandUtils.mergeSegLoop]
      · intro p hp
        simp only [CommandUtils.mergeSegLoop, List.mem_singleton] at hp
        simp [hp]
  | cons y ys ih =>
      intro s e hse hch
      rw [List.chain_cons] at hch
      obtain ⟨hey, hch'⟩ := hch
      by_cases hy : y = e + 1
      · rw [CommandUtils.mergeSegLoop, if_pos hy]
        exact ih s y (by omega) hch'
      · rw [CommandUtils.mergeSegLoop, if_neg hy]
        obtain ⟨hwf, hpw, hlb⟩ := ih y y le_rfl hch'
        refine ⟨?_, ?_, ?_⟩
        · intro p hp
          rcases List.mem_cons.mp hp with hp | hp
          · simp [hp, hse]
          · exact hwf p hp
        · refine List.pairwise_cons.mpr ⟨fun q hq => ?_, hpw⟩
          have := hlb q hq
          omega
        · intro p hp
          rcases List.mem_cons.mp hp with hp | hp
          · simp [hp]
          · have := hlb p hp
            omega

/-- The union of the ranges produced by the merge loop is the current range
together with the remaining IDs. -/
theorem mergeSegLoop_mem :
    ∀ (ys : List Int) (s e : Int), s ≤ e → List.Chain (· < ·) e ys →
      ∀ n : Int,
        (∃ p ∈ CommandUtils.mergeSegLoop s e ys, p.1 ≤ n ∧ n ≤ p.2) ↔
          ((s ≤ n ∧ n ≤ e) ∨ n ∈ ys) := by
  intro ys
  induction ys with
  | nil =>
      intro s e _ _ n
      simp [CommandUtils.mergeSegLoop]
  | cons y ys ih =>
      intro s e hse hch n
      rw [List.chain_cons] at hch
      obtain ⟨hey, hch'⟩ := hch
      by_cases hy : y = e + 1
      · rw [CommandUtils.mergeSegLoop, if_pos hy]
        rw [ih s y (by omega) hch' n]
        subst hy
        simp only [List.mem_cons]
        constructor
        · rintro (h | h)
          · rcases Int.lt_or_le e n with h' | h'
            · exact Or.inr (Or.inl (by omega))
            · exact Or.inl (by omega)
          · exact Or.inr (Or.inr h)
        · rintro (h | h | h)
          · exact Or.inl (by omega)
          · exact Or.inl (by omega)
          · exact Or.inr h
      · rw [CommandUtils.mergeSegLoop, if_neg hy]
        simp only [List.mem_cons, exists_eq_or_imp]
        rw [show (∃ p, p ∈ CommandUtils.mergeSegLoop y y ys ∧ p.1 ≤ n ∧ n ≤ p.2) ↔
            ((y ≤ n ∧ n ≤ y) ∨ n ∈ ys) from by
          simpa using ih y y le_rfl hch' n]
        constructor
        · rintro (h | (h | h))
          · exact Or.inl h
          · exact Or.inr (Or.inl (by omega))
          · exact Or.inr (Or.inr h)
        · rintro (h | (h | h))
          · exact Or.inl h
          · exact Or.inr (Or.inl (by omega))
          · exact Or.inr (Or.inr h)

/-- **C1** (amended): when the positive entries of the lock-ID list are
distinct, `convertLockIdsToSegments` produces well-formed ranges that are
sorted, pairwise disjoint and maximal (consecutive ranges leave a gap of at
least one), and whose union is exactly the set of positive integers of the
input.  (With duplicate positive entries the output can repeat overlapping
segments — see the counterexample.) -/
theorem convertLockIdsToSegments_nodup_spec (lockIds : List Int)
    (hnd : (lockIds.filter (fun id => 0 < id)).Nodup) :
    (∀ p ∈ CommandUtils.convertLockIdsToSegments lockIds, p.1 ≤ p.2) ∧
    (CommandUtils.convertLockIdsToSegments lockIds).Pairwise
      (fun p q => p.2 + 1 < q.1) ∧
    (∀ n : Int,
      (∃ p ∈ CommandUtils.convertLockIdsToSegments lockIds,
          p.1 ≤ n ∧ n ≤ p.2) ↔ (0 < n ∧ n ∈ lockIds)) := by
  have hperm : List.Perm
      ((lockIds.filter (fun id => 0 < id)).insertionSort (· ≤ ·))
      (lockIds.filter (fun id => 0 < id)) :=
    List.perm_insertionSort (· ≤ ·) _
  have hsorted : ((lockIds.filter (fun id => 0 < id)).insertionSort
      (· ≤ ·)).Sorted (· ≤ ·) :=
    List.sorted_insertionSort (· ≤ ·) _
  have hnd' : ((lockIds.filter (fun id => 0 < id)).insertionSort
      (· ≤ ·)).Nodup := hperm.nodup_iff.mpr hnd
  have hlt : ((lockIds.filter (fun id => 0 < id)).insertionSort
      (· ≤ ·)).Sorted (· < ·) :=
    (hsorted.and hnd').imp (fun h => lt_of_le_of_ne h.1 h.2)
  have hmem : ∀ n : Int,
      n ∈ (lockIds.filter (fun id => 0 < id)).insertionSort (· ≤ ·) ↔
        (0 < n ∧ n ∈ lockIds) := by
    intro n
    rw [hperm.mem_iff, List.mem_filter]
    simp [And.comm]
  unfold CommandUtils.convertLockIdsToSegments
  cases hi : (lockIds.filter (fun id => 0 < id)).insertionSort (· ≤ ·) with
  | nil =>
      refine ⟨by simp, by simp, fun n => ?_⟩
      simp only [List.not_mem_nil, false_iff]
      constructor
      · rintro ⟨p, hp, -⟩
        simp at hp
      · intro h
        have := (hmem n).mpr ⟨h.1, h.2⟩
        rw [hi] at this
        simp at this
  | cons x rest =>
      rw [hi] at hlt hmem
      have hch : List.Chain (· < ·) x rest :=
        (List.chain_iff_pairwise).mpr hlt
      obtain ⟨hwf, hpw, -⟩ := mergeSegLoop_invariants rest x x le_rfl hch
      refine ⟨hwf, hpw, fun n => ?_⟩
      rw [mergeSegLoop_mem rest x x le_rfl hch n, ← hmem n]
      simp only [List.mem_cons]
      constructor
      · rintro (h | h)
        · exact Or.inl (by omega)
        · exact Or.inr h
      · rintro (h | h)
        · exact Or.inl (by omega)
        · exact Or.inr h

/-- Witness for C1: the list `[3, 1, 2, 5]` has distinct positive entries
and compresses to sorted, disjoint, maximal segments. -/
theorem convertLockIdsToSegments_nodup_spec_witness :
    (CommandUtils.convertLockIdsToSegments [3, 1, 2, 5]).Pairwise
      (fun p q => p.2 + 1 < q.1) :=
  (convertLockIdsToSegments_nodup_spec [3, 1, 2, 5] (by decide)).2.1

/-- **C7** (amended): for every segment list whose endpoints fit in 32 bits,
every packet produced by `convertSegmentsToPackets` starts with the opcode
byte `0x0D` followed by a range-count byte equal to the number of 8-byte
ranges in the packet, holds at most 25 ranges, and decoding all packets
(4-byte little-endian endpoints) and concatenating their ranges reconstructs
the original segment list in order.  (Endpoints of `2^32` or more are
truncated mod `2^32` by the 4-byte encoding — see the counterexample.) -/
theorem convertSegmentsToPackets_spec (segs : List (Nat × Nat))
    (hb : ∀ r ∈ segs, r.1 < 4294967296 ∧ r.2 < 4294967296) :
    (∀ p ∈ CommandUtils.convertSegmentsToPackets segs,
      p.getD 0 0 = 0x0D ∧
      p.getD 1 0 = (CommandUtils.decodePacket p).length ∧
      (CommandUtils.decodePacket p).length ≤ 25) ∧
    ((CommandUtils.convertSegmentsToPackets segs).map
      CommandUtils.decodePacket).flatten = segs := by
  obtain ⟨P', rs', hfold, hk', hb', hwf', hdec⟩ :=
    segPackets_fold segs [] [] (by simp) (by simp) hb (by simp)
  have hprops : ∀ qs : List (Nat × Nat), qs.length ≤ 25 →
      (∀ r ∈ qs, r.1 < 4294967296 ∧ r.2 < 4294967296) →
      (CommandUtils.mkPacket (CommandUtils.flatEnc qs)).getD 0 0 = 0x0D ∧
      (CommandUtils.mkPacket (CommandUtils.flatEnc qs)).getD 1 0 =
        (CommandUtils.decodePacket
          (CommandUtils.mkPacket (CommandUtils.flatEnc qs))).length ∧
      (CommandUtils.decodePacket
        (CommandUtils.mkPacket (CommandUtils.flatEnc qs))).length ≤ 25 := by
    intro qs hle hbq
    have hdecq : CommandUtils.decodePacket
        (CommandUtils.mkPacket (CommandUtils.flatEnc qs)) = qs := by
      rw [CommandUtils.decodePacket, CommandUtils.mkPacket,
        List.drop_succ_cons, List.drop_succ_cons, List.drop_zero]
      exact decodeChunk_flatEnc qs hbq
    refine ⟨rfl, ?_, ?_⟩
    · rw [hdecq]
      show (CommandUtils.flatEnc qs).length / 8 = qs.length
      rw [flatEnc_length]
      omega
    · rw [hdecq]
      exact hle
  have hfold' : segs.foldl (fun st seg =>
      CommandUtils.pushNumber (CommandUtils.pushNumber st seg.1) seg.2)
      ([], []) = (P', CommandUtils.flatEnc rs') := hfold
  have hconv : CommandUtils.convertSegmentsToPackets segs =
      if 0 < (CommandUtils.flatEnc rs').length then
        P' ++ [CommandUtils.mkPacket (CommandUtils.flatEnc rs')]
      else P' := by
    rw [CommandUtils.convertSegmentsToPackets]
    rw [hfold']
  by_cases hrs : rs' = []
  · subst hrs
    rw [show CommandUtils.flatEnc [] = [] from rfl] at hconv
    rw [if_neg (by simp)] at hconv
    simp only [List.append_nil] at hdec
    refine ⟨fun p hp => ?_, ?_⟩
    · rw [hconv] at hp
      obtain ⟨qs, -, hle, hbq, rfl⟩ := hwf' p hp
      exact hprops qs hle hbq
    · rw [hconv, hdec]
      simp
  · have hpos : 0 < (CommandUtils.flatEnc rs').length := by
      rw [flatEnc_length]
      cases rs' with
      | nil => exact absurd rfl hrs
      | cons a l => simp
    rw [if_pos hpos] at hconv
    have hdecq : CommandUtils.decodePacket
        (CommandUtils.mkPacket (CommandUtils.flatEnc rs')) = rs' := by
      rw [CommandUtils.decodePacket, CommandUtils.mkPacket,
        List.drop_succ_cons, List.drop_succ_cons, List.drop_zero]
      exact decodeChunk_flatEnc rs' hb'
    refine ⟨fun p hp => ?_, ?_⟩
    · rw [hconv] at hp
      rcases List.mem_append.mp hp with hp | hp
      · obtain ⟨qs, -, hle, hbq, rfl⟩ := hwf' p hp
        exact hprops qs hle hbq
      · rcases List.mem_singleton.mp hp with rfl
        exact hprops rs' (by omega) hb'
    · rw [hconv, List.map_append, List.flatten_append]
      simp only [List.map_cons, List.map_nil, List.flatten_cons,
        List.flatten_nil, List.append_nil, hdecq]
      simp only [List.append_nil] at hdec
      exact hdec

/-- Witness for C7: the two segments `(1,3)` and `(10,10)` produce one packet
that decodes back to the same segment list. -/
theorem convertSegmentsToPackets_spec_witness :
    ((CommandUtils.convertSegmentsToPackets [(1, 3), (10, 10)]).map
      CommandUtils.decodePacket).flatten = [(1, 3), (10, 10)] :=
  (convertSegmentsToPackets_spec [(1, 3), (10, 10)] (by decide)).2

/-- Counterexample for C7: a segment whose endpoint `2^32` overflows the
4-byte little-endian encoding; decoding the packets yields `(0, 1)` instead
of the original segment. -/
theorem convertSegmentsToPackets_overflow_counterexample :
    ((CommandUtils.convertSegmentsToPackets [(4294967296, 1)]).map
        CommandUtils.decodePacket).flatten ≠ [(4294967296, 1)] := by
  decide
